import Mathlib

/-!
Verification of the `queus` repository: a shallow embedding of the
addressable tree-structured network (`src/system.rs`), the console line
buffer (`src/console/mod.rs`) and the device path type
(`src/device/mod.rs`), together with proofs and refutations of the
specification's claims about them.

Rust `HashMap<Address, V>` values are embedded as association lists
`List (Nat × V)` with duplicate keys removed on insertion, `Address(u16)`
as `Nat`, and `u16`/`u32` arithmetic as `Nat` arithmetic modulo `2 ^ 16` /
`2 ^ 32` (Rust release-mode wrapping).
-/

namespace Queus

/-- Lookup in an association-list map: the value of the first entry whose
key matches, mirroring `HashMap::get`. -/
def mlookup {β : Type _} (m : List (Nat × β)) (k : Nat) : Option β :=
  (m.find? (fun e => e.1 == k)).map (fun e => e.2)

/-- Insertion in an association-list map, mirroring `HashMap::insert`
(overwrites any previous entry for the key). -/
def minsert {β : Type _} (m : List (Nat × β)) (k : Nat) (v : β) : List (Nat × β) :=
  (k, v) :: m.filter (fun e => e.1 != k)

theorem mlookup_nil {β : Type _} (k : Nat) : mlookup ([] : List (Nat × β)) k = none := rfl

theorem mlookup_minsert_self {β : Type _} (m : List (Nat × β)) (k : Nat) (v : β) :
    mlookup (minsert m k v) k = some v := by
  simp [mlookup, minsert, List.find?]

theorem find?_filter_ne {β : Type _} (m : List (Nat × β)) (k k' : Nat) (h : k' ≠ k) :
    (m.filter (fun e => e.1 != k)).find? (fun e => e.1 == k') =
      m.find? (fun e => e.1 == k') := by
  induction m with
  | nil => rfl
  | cons e rest ih =>
    by_cases hek : e.1 = k
    · have h1 : (e.1 != k) = false := by simp [hek]
      have h2 : (e.1 == k') = false := by simp [hek]; omega
      simp [List.filter, h1, List.find?, h2, ih]
    · have h1 : (e.1 != k) = true := by simp [hek]
      by_cases hek' : e.1 = k'
      · have h2 : (k' != k) = true := by simp [h]
        simp [List.filter, h1, List.find?, hek', h2]
      · have h2 : (e.1 == k') = false := by simp [hek']
        simp [List.filter, h1, List.find?, h2, ih]

theorem mlookup_minsert_ne {β : Type _} (m : List (Nat × β)) (k k' : Nat) (v : β)
    (h : k' ≠ k) : mlookup (minsert m k v) k' = mlookup m k' := by
  have hk : (k == k') = false := by simp; omega
  simp [mlookup, minsert, List.find?, hk, find?_filter_ne m k k' h]

theorem mlookup_minsert {β : Type _} (m : List (Nat × β)) (k k' : Nat) (v : β) :
    mlookup (minsert m k v) k' = if k' = k then some v else mlookup m k' := by
  by_cases h : k' = k
  · subst h; simp [mlookup_minsert_self]
  · simp [h, mlookup_minsert_ne m k k' v h]

theorem mlookup_mem {β : Type _} {m : List (Nat × β)} {k : Nat} {v : β}
    (h : mlookup m k = some v) : (k, v) ∈ m := by
  unfold mlookup at h
  cases hf : m.find? (fun e => e.1 == k) with
  | none => rw [hf] at h; simp at h
  | some e =>
    rw [hf] at h
    simp at h
    have hmem := List.mem_of_find?_eq_some hf
    have hkey := List.find?_some hf
    simp at hkey
    have : e = (k, v) := by
      cases e with
      | mk a b => simp at hkey h; simp [hkey, h]
    rw [this] at hmem
    exact hmem

theorem mlookup_isEmpty {β : Type _} {m : List (Nat × β)} (h : m.isEmpty = true) (k : Nat) :
    mlookup m k = none := by
  cases m with
  | nil => rfl
  | cons e rest => simp [List.isEmpty] at h

/-! ## The network arena (`src/system.rs`) -/

/-- `Counter` starts at 1000 (`Counter::new`). -/
def counterStart : Nat := 1000

/-- `Counter::next`: `self.value += 1; Some(self.value)` on a `u16`
(wrapping modulo `2 ^ 16` in release mode). Returns the new value. -/
def counterNext (v : Nat) : Nat := (v + 1) % 65536

/-- The `Network<N>` struct: counter value, optional root, node arena and
the two topology maps. -/
structure Network (N : Type) where
  counter : Nat
  root : Option Nat
  nodes : List (Nat × N)
  connections : List (Nat × List Nat)
  parent_connection : List (Nat × Nat)

/-- `Network::new`. -/
def Network.new {N : Type} : Network N :=
  ⟨counterStart, none, [], [], []⟩

/-- `Network::connect_with_address`: store the node, set the root if unset,
record the parent/child edge if a parent was supplied, and finally reset the
new address's child list to empty. Returns the updated network and the
returned address. -/
def Network.connect_with_address {N : Type} (net : Network N) (new_node : N)
    (new_address : Nat) (parent : Option Nat) : Network N × Nat :=
  let nodes' := minsert net.nodes new_address new_node
  let root' := match net.root with
    | none => some new_address
    | some r => some r
  let cp : List (Nat × List Nat) × List (Nat × Nat) :=
    match parent with
    | some p =>
      let conns := match mlookup net.connections p with
        | some children => minsert net.connections p (children ++ [new_address])
        | none => minsert net.connections p [new_address]
      (conns, minsert net.parent_connection new_address p)
    | none => (net.connections, net.parent_connection)
  let connections' := minsert cp.1 new_address []
  (⟨net.counter, root', nodes', connections', cp.2⟩, new_address)

/-- `Network::connect_to_parent`: allocate a counter address, then delegate
to `connect_with_address`. -/
def Network.connect_to_parent {N : Type} (net : Network N) (new_node : N)
    (parent : Option Nat) : Network N × Nat :=
  let v := counterNext net.counter
  Network.connect_with_address ⟨v, net.root, net.nodes, net.connections, net.parent_connection⟩
    new_node v parent

/-- `Network::connect_with_root`: on an empty arena insert with no parent;
otherwise attach to the supplied parent, or to the current root when no
parent is supplied. -/
def Network.connect_with_root {N : Type} (net : Network N) (new_node : N)
    (parent : Option Nat) : Network N × Nat :=
  if net.nodes.isEmpty then net.connect_to_parent new_node none
  else match parent with
    | none => net.connect_to_parent new_node net.root
    | some p => net.connect_to_parent new_node (some p)

/-- `Network::get_node`. -/
def Network.get_node {N : Type} (net : Network N) (address : Nat) : Option N :=
  mlookup net.nodes address

/-- `Network::get_parent`. -/
def Network.get_parent {N : Type} (net : Network N) (address : Nat) : Option Nat :=
  mlookup net.parent_connection address

/-- `Network::get_children`. -/
def Network.get_children {N : Type} (net : Network N) (address : Nat) : Option (List Nat) :=
  mlookup net.connections address

/-! ## Sequences of public insertion operations -/

/-- One public insertion operation on the network. -/
inductive Op (N : Type) where
  | toParent (node : N) (parent : Option Nat)
  | withRoot (node : N) (parent : Option Nat)
  | withAddress (node : N) (address : Nat) (parent : Option Nat)

/-- Apply one operation, returning the new network and the returned address. -/
def applyOp {N : Type} (net : Network N) : Op N → Network N × Nat
  | .toParent n p => net.connect_to_parent n p
  | .withRoot n p => net.connect_with_root n p
  | .withAddress n a p => net.connect_with_address n a p

/-- Run a sequence of operations from a given network state. -/
def runFrom {N : Type} (net : Network N) : List (Op N) → Network N
  | [] => net
  | op :: ops => runFrom (applyOp net op).1 ops

/-- Run a sequence of operations from the fresh network. -/
def run {N : Type} (ops : List (Op N)) : Network N :=
  runFrom Network.new ops

/-- The addresses returned by a sequence of operations, in order. -/
def runAddrsFrom {N : Type} (net : Network N) : List (Op N) → List Nat
  | [] => []
  | op :: ops => (applyOp net op).2 :: runAddrsFrom (applyOp net op).1 ops

/-- The addresses returned by a sequence of operations from the fresh network. -/
def runAddrs {N : Type} (ops : List (Op N)) : List Nat :=
  runAddrsFrom Network.new ops

/-! ## Devices and device paths (`src/system.rs`, `src/device/mod.rs`) -/

/-- The closed `Device` enum: mainframe, network node or terminal, each
carrying an identifier and an address field. -/
inductive Device where
  | mainframe (ident : String) (address : Nat)
  | networkNode (ident : String) (address : Nat)
  | terminal (ident : String) (address : Nat)
deriving DecidableEq

/-- `Device::id`. -/
def Device.deviceId : Device → String
  | .mainframe i _ => i
  | .networkNode i _ => i
  | .terminal i _ => i

/-- `Device::address` (the `Addressable` impl): the device's own stored
address field. -/
def Device.address : Device → Nat
  | .mainframe _ a => a
  | .networkNode _ a => a
  | .terminal _ a => a

/-- `DevicePath`: an ordered list of string segments. -/
structure DevicePath where
  path : List String
deriving DecidableEq

/-- The loop of `Device::device_path`, with explicit fuel: while the current
device's address has a recorded parent, push the current device's id, then
move to the node stored at the parent address (breaking if it is absent).
`none` means the fuel ran out before the loop exited. -/
def devicePathAux (net : Network Device) : Device → List String → Nat → Option (List String)
  | _, _, 0 => none
  | cur, path, n + 1 =>
    match net.get_parent cur.address with
    | none => some path
    | some p =>
      match net.get_node p with
      | some d => devicePathAux net d (path ++ [cur.deviceId]) n
      | none => some (path ++ [cur.deviceId])

/-- `Device::device_path`: push the device's own id, run the parent-chain
loop, and reverse the accumulated list. -/
def devicePath (net : Network Device) (self : Device) (fuel : Nat) : Option DevicePath :=
  (devicePathAux net self [self.deviceId] fuel).map (fun p => DevicePath.mk p.reverse)

/-- Splitting a character list at every occurrence of a separator character,
the embedding of Rust's `str::split` with the one-character pattern `"/"`
(`From<&str> for DevicePath`). Adjacent, leading and trailing separators
produce empty pieces, exactly as in Rust. -/
def splitChar (sep : Char) : List Char → List (List Char)
  | [] => [[]]
  | c :: rest =>
    let r := splitChar sep rest
    if c = sep then [] :: r
    else match r with
      | [] => [[c]]
      | h :: t => (c :: h) :: t

/-- `From<&str> for DevicePath`: split on `/`, keep the nonempty segments. -/
def DevicePath.fromStr (s : String) : DevicePath :=
  ⟨((splitChar '/' s.toList).map (fun part => String.mk part)).filter
      (fun p => !p.isEmpty)⟩

/-- Joining with a separator, the embedding of `Vec::join` used by the
`Display` impl of `DevicePath`. -/
def joinSep (sep : String) : List String → String
  | [] => ""
  | [x] => x
  | x :: y :: xs => x ++ sep ++ joinSep sep (y :: xs)

/-- `Display for DevicePath`: `self.path.join("/")`. -/
def DevicePath.toStr (p : DevicePath) : String :=
  joinSep "/" p.path

/-! ## The console line buffer (`src/console/mod.rs`)

The channel plumbing (`mpsc`, `try_recv`) is concurrency glue; the
character-processing loop inside `Console::receive` is embedded per
character. Rust's `String::len` is a byte count; the inputs of the claims
are ASCII, where it coincides with the character count used here. -/

/-- The `Console` state (the receiver end of the channel is omitted). -/
structure Console where
  previous_lines : List String
  current_line : String
  cursor_position : Nat
  text_width : Nat
deriving DecidableEq

/-- `Console::new`. -/
def Console.new (width : Nat) : Console :=
  ⟨[], "", 0, width⟩

/-- `Console::newline`: archive the current line, reset cursor and line. -/
def Console.newline (c : Console) : Console :=
  ⟨c.previous_lines ++ [c.current_line], "", 0, c.text_width⟩

/-- The body of the `for c in &t` loop in `Console::receive`: a character
under the width bound that is not a newline is appended; otherwise
`newline` is called (and the character itself is discarded). The cursor is
a `u32`, hence the modulus. -/
def Console.receiveChar (c : Console) (ch : Char) : Console :=
  if c.current_line.length < c.text_width ∧ ch ≠ '\n' then
    ⟨c.previous_lines, c.current_line.push ch, (c.cursor_position + 1) % 4294967296,
      c.text_width⟩
  else c.newline

/-- Processing a sequence of characters, chunk boundaries being irrelevant
to the per-character loop. -/
def Console.receiveChars (c : Console) (cs : List Char) : Console :=
  cs.foldl Console.receiveChar c

/-- `Console::view`: take the prefix of `previous_lines` of length
`min (length) max_lines`, `rfold` it (back to front) appending
`'\n' ++ line`, then append `'\n' ++ current_line`. -/
def Console.view (c : Console) (max_lines : Nat) : String :=
  let size := min c.previous_lines.length max_lines
  let screen := ((c.previous_lines.take size).reverse).foldl
    (fun accum line => accum.push '\n' ++ line) ""
  screen.push '\n' ++ c.current_line

/-! ## The caller contract and the arena invariant -/

/-- The parent argument supplied to an operation. -/
def parentArg {N : Type} : Op N → Option Nat
  | .toParent _ p => p
  | .withRoot _ p => p
  | .withAddress _ _ p => p

/-- The address at which an operation will store its node. -/
def opAddr {N : Type} (net : Network N) : Op N → Nat
  | .toParent _ _ => counterNext net.counter
  | .withRoot _ _ => counterNext net.counter
  | .withAddress _ a _ => a

/-- The caller contract of one insertion, as stated by the specification:
any supplied parent address is already stored in the arena, and the address
about to be used is not. -/
def opOkB {N : Type} (net : Network N) (op : Op N) : Bool :=
  (match parentArg op with
    | none => true
    | some q => (mlookup net.nodes q).isSome) &&
  (mlookup net.nodes (opAddr net op)).isNone

/-- The caller contract along a whole sequence of insertions. -/
def validB {N : Type} (net : Network N) : List (Op N) → Bool
  | [] => true
  | op :: ops => opOkB net op && validB (applyOp net op).1 ops

/-- Iterating a parent map `f` for `n` steps from `x`; `none` means an
element with no recorded parent was passed within the `n` steps. -/
def pcIterF (f : Nat → Option Nat) : Nat → Nat → Option Nat
  | 0, x => some x
  | n + 1, x =>
    match f x with
    | none => none
    | some q => pcIterF f n q

theorem pcIterF_avoid (f : Nat → Option Nat) (a p : Nat)
    (havoid : ∀ y q, f y = some q → q ≠ a) :
    ∀ (n : Nat) (x : Nat), x ≠ a →
      pcIterF (fun y => if y = a then some p else f y) n x = pcIterF f n x := by
  intro n
  induction n with
  | zero => intro x _; rfl
  | succ n ih =>
    intro x hx
    simp only [pcIterF, if_neg hx]
    cases hfx : f x with
    | none => rfl
    | some q => exact ih q (havoid x q hfx)

theorem chainEnds_update (f : Nat → Option Nat) (a p : Nat)
    (havoid : ∀ y q, f y = some q → q ≠ a) (hpa : p ≠ a)
    (hterm : ∀ x, ∃ n, pcIterF f n x = none) :
    ∀ x, ∃ n, pcIterF (fun y => if y = a then some p else f y) n x = none := by
  intro x
  by_cases hx : x = a
  · obtain ⟨m, hm⟩ := hterm p
    refine ⟨m + 1, ?_⟩
    subst hx
    have hstep : pcIterF (fun y => if y = x then some p else f y) (m + 1) x =
        pcIterF (fun y => if y = x then some p else f y) m p := by
      simp [pcIterF]
    rw [hstep, pcIterF_avoid f x p havoid m p hpa]
    exact hm
  · obtain ⟨m, hm⟩ := hterm x
    refine ⟨m, ?_⟩
    rw [pcIterF_avoid f a p havoid m x hx]
    exact hm

/-- The arena invariant maintained by contract-respecting insertions:
the root is stored and parentless, the parent map's keys and values are
stored, the parent and child maps are mutual inverses, and every parent
chain ends. -/
structure Inv {N : Type} (net : Network N) : Prop where
  rootEmpty : net.root = none → net.nodes.isEmpty = true
  rootStored : ∀ r, net.root = some r → (mlookup net.nodes r).isSome = true
  rootNoParent : ∀ r, net.root = some r → mlookup net.parent_connection r = none
  pcKeyStored : ∀ x p, mlookup net.parent_connection x = some p →
    (mlookup net.nodes x).isSome = true
  pcValStored : ∀ x p, mlookup net.parent_connection x = some p →
    (mlookup net.nodes p).isSome = true
  childOnce : ∀ x p, mlookup net.parent_connection x = some p →
    ∃ l, mlookup net.connections p = some l ∧ l.count x = 1
  childParent : ∀ p l, mlookup net.connections p = some l →
    ∀ c ∈ l, mlookup net.parent_connection c = some p
  chainEnds : ∀ x, ∃ n, pcIterF (fun y => mlookup net.parent_connection y) n x = none

theorem inv_new {N : Type} : Inv (@Network.new N) := by
  refine ⟨fun _ => rfl, ?_, ?_, ?_, ?_, ?_, ?_, ?_⟩
  · intro r h; exact absurd h (by simp [Network.new])
  · intro r h; exact absurd h (by simp [Network.new])
  · intro x p h; exact absurd h (by simp [Network.new, mlookup])
  · intro x p h; exact absurd h (by simp [Network.new, mlookup])
  · intro x p h; exact absurd h (by simp [Network.new, mlookup])
  · intro p l h; exact absurd h (by simp [Network.new, mlookup])
  · intro x; exact ⟨1, rfl⟩

theorem isSome_mlookup_minsert {β : Type _} (m : List (Nat × β)) (k k' : Nat) (v : β)
    (h : (mlookup m k').isSome = true) : (mlookup (minsert m k v) k').isSome = true := by
  rw [mlookup_minsert]
  by_cases hk : k' = k <;> simp [hk, h]

theorem ne_of_lookup_isSome_fresh {β : Type _} {m : List (Nat × β)} {k k' : Nat}
    (h : (mlookup m k').isSome = true) (hfresh : mlookup m k = none) : k' ≠ k := by
  intro he
  subst he
  rw [hfresh] at h
  simp at h

theorem Inv.pc_fresh {N : Type} {net : Network N} (inv : Inv net) {a : Nat}
    (hfresh : mlookup net.nodes a = none) : mlookup net.parent_connection a = none := by
  cases hpc : mlookup net.parent_connection a with
  | none => rfl
  | some q =>
    have h := inv.pcKeyStored a q hpc
    rw [hfresh] at h
    simp at h

theorem cwa_none_eq {N : Type} (net : Network N) (n : N) (a : Nat) :
    (net.connect_with_address n a none).1 =
      ⟨net.counter,
        (match net.root with | none => some a | some r => some r),
        minsert net.nodes a n,
        minsert net.connections a [],
        net.parent_connection⟩ := rfl

theorem cwa_some_eq {N : Type} (net : Network N) (n : N) (a q : Nat) :
    (net.connect_with_address n a (some q)).1 =
      ⟨net.counter,
        (match net.root with | none => some a | some r => some r),
        minsert net.nodes a n,
        minsert (match mlookup net.connections q with
          | some children => minsert net.connections q (children ++ [a])
          | none => minsert net.connections q [a]) a [],
        minsert net.parent_connection a q⟩ := rfl

theorem inv_cwa_none {N : Type} (net : Network N) (n : N) (a : Nat) (inv : Inv net)
    (hfresh : mlookup net.nodes a = none) :
    Inv (net.connect_with_address n a none).1 := by
  rw [cwa_none_eq]
  refine ⟨?_, ?_, ?_, ?_, ?_, ?_, ?_, ?_⟩
  · intro h
    cases hroot : net.root <;> simp [hroot] at h
  · intro r hr
    cases hroot : net.root with
    | none =>
      simp only [hroot] at hr
      have : a = r := by simpa using hr
      subst this
      simp [mlookup_minsert_self]
    | some r0 =>
      simp only [hroot] at hr
      have : r0 = r := by simpa using hr
      subst this
      exact isSome_mlookup_minsert _ _ _ _ (inv.rootStored r0 hroot)
  · intro r hr
    cases hroot : net.root with
    | none =>
      simp only [hroot] at hr
      have : a = r := by simpa using hr
      subst this
      exact inv.pc_fresh hfresh
    | some r0 =>
      simp only [hroot] at hr
      have : r0 = r := by simpa using hr
      subst this
      exact inv.rootNoParent r0 hroot
  · intro x p hx
    exact isSome_mlookup_minsert _ _ _ _ (inv.pcKeyStored x p hx)
  · intro x p hx
    exact isSome_mlookup_minsert _ _ _ _ (inv.pcValStored x p hx)
  · intro x p hx
    obtain ⟨l, hl, hc⟩ := inv.childOnce x p hx
    have hpa : p ≠ a := ne_of_lookup_isSome_fresh (inv.pcValStored x p hx) hfresh
    refine ⟨l, ?_, hc⟩
    rw [mlookup_minsert_ne _ _ _ _ hpa]
    exact hl
  · intro p l hl c hc
    rw [mlookup_minsert] at hl
    by_cases hp : p = a
    · rw [if_pos hp] at hl
      have : ([] : List Nat) = l := by simpa using hl
      subst this
      cases hc
    · rw [if_neg hp] at hl
      exact inv.childParent p l hl c hc
  · exact inv.chainEnds

theorem inv_cwa_some_core {N : Type} (net : Network N) (n : N) (a q : Nat) (L : List Nat)
    (inv : Inv net) (hq : (mlookup net.nodes q).isSome = true)
    (hfresh : mlookup net.nodes a = none)
    (hL : mlookup net.connections q = some L ∨
      (mlookup net.connections q = none ∧ L = [])) :
    Inv ⟨net.counter,
      (match net.root with | none => some a | some r => some r),
      minsert net.nodes a n,
      minsert (minsert net.connections q (L ++ [a])) a [],
      minsert net.parent_connection a q⟩ := by
  have hqa : q ≠ a := ne_of_lookup_isSome_fresh hq hfresh
  have hanotL : a ∉ L := by
    rcases hL with hsome | ⟨_, hnil⟩
    · intro ha
      have hpc := inv.childParent q L hsome a ha
      have := inv.pcKeyStored a q hpc
      rw [hfresh] at this
      simp at this
    · subst hnil
      simp
  refine ⟨?_, ?_, ?_, ?_, ?_, ?_, ?_, ?_⟩
  · intro h
    cases hroot : net.root <;> simp [hroot] at h
  · intro r hr
    cases hroot : net.root with
    | none =>
      simp only [hroot] at hr
      have : a = r := by simpa using hr
      subst this
      simp [mlookup_minsert_self]
    | some r0 =>
      simp only [hroot] at hr
      have : r0 = r := by simpa using hr
      subst this
      exact isSome_mlookup_minsert _ _ _ _ (inv.rootStored r0 hroot)
  · intro r hr
    cases hroot : net.root with
    | none =>
      have he := inv.rootEmpty hroot
      have hqnone := mlookup_isEmpty he q
      rw [hqnone] at hq
      simp at hq
    | some r0 =>
      simp only [hroot] at hr
      have : r0 = r := by simpa using hr
      subst this
      have hra : r0 ≠ a := ne_of_lookup_isSome_fresh (inv.rootStored r0 hroot) hfresh
      rw [mlookup_minsert_ne _ _ _ _ hra]
      exact inv.rootNoParent r0 hroot
  · intro x p hx
    rw [mlookup_minsert] at hx
    by_cases hxa : x = a
    · subst hxa
      rw [mlookup_minsert_self]
      rfl
    · rw [if_neg hxa] at hx
      exact isSome_mlookup_minsert _ _ _ _ (inv.pcKeyStored x p hx)
  · intro x p hx
    rw [mlookup_minsert] at hx
    by_cases hxa : x = a
    · rw [if_pos hxa] at hx
      have : q = p := by simpa using hx
      subst this
      exact isSome_mlookup_minsert _ _ _ _ hq
    · rw [if_neg hxa] at hx
      exact isSome_mlookup_minsert _ _ _ _ (inv.pcValStored x p hx)
  · intro x p hx
    rw [mlookup_minsert] at hx
    by_cases hxa : x = a
    · rw [if_pos hxa] at hx
      have : q = p := by simpa using hx
      subst this
      refine ⟨L ++ [a], ?_, ?_⟩
      · rw [mlookup_minsert_ne _ _ _ _ hqa, mlookup_minsert_self]
      · rw [hxa, List.count_append, List.count_eq_zero.mpr hanotL]
        simp
    · rw [if_neg hxa] at hx
      obtain ⟨l, hl, hc⟩ := inv.childOnce x p hx
      have hpa : p ≠ a := ne_of_lookup_isSome_fresh (inv.pcValStored x p hx) hfresh
      by_cases hpq : p = q
      · subst hpq
        have hLl : L = l := by
          rcases hL with hsome | ⟨hnone, _⟩
          · rw [hl] at hsome
            exact (Option.some.inj hsome).symm
          · rw [hnone] at hl
            exact absurd hl (by simp)
        subst hLl
        refine ⟨L ++ [a], ?_, ?_⟩
        · rw [mlookup_minsert_ne _ _ _ _ hqa, mlookup_minsert_self]
        · have h1 : ([a] : List Nat).count x = 0 := List.count_eq_zero.mpr (by simp [hxa])
          rw [List.count_append, h1, hc]
      · refine ⟨l, ?_, hc⟩
        rw [mlookup_minsert_ne _ _ _ _ hpa, mlookup_minsert_ne _ _ _ _ hpq]
        exact hl
  · intro p l hl c hc
    rw [mlookup_minsert] at hl
    by_cases hpa : p = a
    · rw [if_pos hpa] at hl
      have : ([] : List Nat) = l := by simpa using hl
      subst this
      cases hc
    · rw [if_neg hpa] at hl
      rw [mlookup_minsert] at hl
      by_cases hpq : p = q
      · subst hpq
        rw [if_pos rfl] at hl
        have hleq : L ++ [a] = l := by simpa using hl
        subst hleq
        rcases List.mem_append.mp hc with hcL | hca
        · have hsome : mlookup net.connections p = some L := by
            rcases hL with hsome | ⟨_, hnil⟩
            · exact hsome
            · subst hnil
              cases hcL
          have hpcc := inv.childParent p L hsome c hcL
          have hca : c ≠ a := ne_of_lookup_isSome_fresh (inv.pcKeyStored c p hpcc) hfresh
          rw [mlookup_minsert_ne _ _ _ _ hca]
          exact hpcc
        · have : c = a := by simpa using hca
          subst this
          rw [mlookup_minsert_self]
      · rw [if_neg hpq] at hl
        have hpcc := inv.childParent p l hl c hc
        have hca : c ≠ a := ne_of_lookup_isSome_fresh (inv.pcKeyStored c p hpcc) hfresh
        rw [mlookup_minsert_ne _ _ _ _ hca]
        exact hpcc
  · have hfun : (fun y => mlookup (minsert net.parent_connection a q) y) =
        (fun y => if y = a then some q else mlookup net.parent_connection y) := by
      funext y
      rw [mlookup_minsert]
    intro x
    rw [show (⟨net.counter,
        (match net.root with | none => some a | some r => some r),
        minsert net.nodes a n,
        minsert (minsert net.connections q (L ++ [a])) a [],
        minsert net.parent_connection a q⟩ : Network N).parent_connection =
      minsert net.parent_connection a q from rfl, hfun]
    exact chainEnds_update _ a q
      (fun y q0 h => ne_of_lookup_isSome_fresh (inv.pcValStored y q0 h) hfresh)
      hqa inv.chainEnds x

theorem inv_counter {N : Type} {net : Network N} (inv : Inv net) (v : Nat) :
    Inv ⟨v, net.root, net.nodes, net.connections, net.parent_connection⟩ :=
  ⟨inv.rootEmpty, inv.rootStored, inv.rootNoParent, inv.pcKeyStored,
    inv.pcValStored, inv.childOnce, inv.childParent, inv.chainEnds⟩

theorem inv_cwa {N : Type} (net : Network N) (n : N) (a : Nat) (p : Option Nat) (inv : Inv net)
    (heff : ∀ q, p = some q → (mlookup net.nodes q).isSome = true)
    (hfresh : mlookup net.nodes a = none) :
    Inv (net.connect_with_address n a p).1 := by
  cases p with
  | none => exact inv_cwa_none net n a inv hfresh
  | some q =>
    have hq := heff q rfl
    rw [cwa_some_eq]
    cases hc : mlookup net.connections q with
    | some ch => exact inv_cwa_some_core net n a q ch inv hq hfresh (Or.inl hc)
    | none => exact inv_cwa_some_core net n a q [] inv hq hfresh (Or.inr ⟨hc, rfl⟩)

theorem inv_ctp {N : Type} (net : Network N) (nd : N) (p : Option Nat) (inv : Inv net)
    (heff : ∀ q, p = some q → (mlookup net.nodes q).isSome = true)
    (hfresh : mlookup net.nodes (counterNext net.counter) = none) :
    Inv (net.connect_to_parent nd p).1 := by
  unfold Network.connect_to_parent
  exact inv_cwa _ nd _ p (inv_counter inv _) heff hfresh

theorem inv_applyOp {N : Type} (net : Network N) (op : Op N) (inv : Inv net)
    (hok : opOkB net op = true) : Inv (applyOp net op).1 := by
  rw [opOkB, Bool.and_eq_true] at hok
  obtain ⟨hpar, hfreshb⟩ := hok
  have hfresh : mlookup net.nodes (opAddr net op) = none := by
    rwa [Option.isNone_iff_eq_none] at hfreshb
  cases op with
  | toParent nd p =>
    refine inv_ctp net nd p inv ?_ hfresh
    intro q hq
    subst hq
    exact hpar
  | withAddress nd a p =>
    refine inv_cwa net nd a p inv ?_ hfresh
    intro q hq
    subst hq
    exact hpar
  | withRoot nd p =>
    show Inv (net.connect_with_root nd p).1
    unfold Network.connect_with_root
    by_cases he : net.nodes.isEmpty = true
    · rw [if_pos he]
      refine inv_ctp net nd none inv ?_ hfresh
      intro q hq
      cases hq
    · rw [if_neg he]
      cases p with
      | none =>
        refine inv_ctp net nd net.root inv ?_ hfresh
        intro q hq
        exact inv.rootStored q hq
      | some q0 =>
        refine inv_ctp net nd (some q0) inv ?_ hfresh
        intro q hq
        cases hq
        exact hpar

theorem inv_runFrom {N : Type} (ops : List (Op N)) (net : Network N) (inv : Inv net)
    (h : validB net ops = true) : Inv (runFrom net ops) := by
  induction ops generalizing net with
  | nil => exact inv
  | cons op ops ih =>
    rw [validB, Bool.and_eq_true] at h
    exact ih (applyOp net op).1 (inv_applyOp net op inv h.1) h.2

theorem inv_run {N : Type} (ops : List (Op N)) (h : validB Network.new ops = true) :
    Inv (run ops) :=
  inv_runFrom ops Network.new inv_new h

/-! ## Helper lemmas: children after insertion, root stability -/

theorem children_after_cwa {N : Type} (net : Network N) (n : N) (a : Nat) (p : Option Nat) :
    (net.connect_with_address n a p).1.get_children (net.connect_with_address n a p).2 = some [] := by
  cases p <;> simp [Network.connect_with_address, Network.get_children, mlookup_minsert_self]

theorem children_after_ctp {N : Type} (net : Network N) (n : N) (p : Option Nat) :
    (net.connect_to_parent n p).1.get_children (net.connect_to_parent n p).2 = some [] := by
  unfold Network.connect_to_parent
  exact children_after_cwa _ n _ p

theorem root_after_cwa {N : Type} (net : Network N) (n : N) (a : Nat) (p : Option Nat)
    (r : Nat) (h : net.root = some r) : (net.connect_with_address n a p).1.root = some r := by
  cases p <;> simp [Network.connect_with_address, h]

theorem root_after_applyOp {N : Type} (net : Network N) (op : Op N) (r : Nat)
    (h : net.root = some r) : (applyOp net op).1.root = some r := by
  cases op with
  | toParent n p =>
    unfold applyOp Network.connect_to_parent
    exact root_after_cwa _ n _ p r h
  | withAddress n a p => exact root_after_cwa net n a p r h
  | withRoot n p =>
    unfold applyOp Network.connect_with_root
    by_cases he : net.nodes.isEmpty
    · simp only [he, if_true]
      unfold Network.connect_to_parent
      exact root_after_cwa _ n _ none r h
    · simp only [he, Bool.false_eq_true, if_false]
      cases p with
      | none =>
        unfold Network.connect_to_parent
        exact root_after_cwa _ n _ net.root r h
      | some q =>
        unfold Network.connect_to_parent
        exact root_after_cwa _ n _ (some q) r h

theorem root_after_runFrom {N : Type} (ops : List (Op N)) (net : Network N) (r : Nat)
    (h : net.root = some r) : (runFrom net ops).root = some r := by
  induction ops generalizing net with
  | nil => exact h
  | cons op ops ih => exact ih _ (root_after_applyOp net op r h)

theorem first_insert_sets_root {N : Type} (op : Op N) :
    (applyOp Network.new op).1.root = some (applyOp Network.new op).2 := by
  cases op with
  | toParent n p =>
    cases p <;> rfl
  | withAddress n a p =>
    cases p <;> rfl
  | withRoot n p => rfl

/-! ## Address allocation: closed form of the counter -/

/-- Whether an operation lets the counter allocate its address. -/
def isAllocOp {N : Type} : Op N → Bool
  | .toParent _ _ => true
  | .withRoot _ _ => true
  | .withAddress _ _ _ => false

theorem alloc_addr_counter {N : Type} (net : Network N) (op : Op N)
    (h : isAllocOp op = true) :
    (applyOp net op).2 = counterNext net.counter ∧
    (applyOp net op).1.counter = counterNext net.counter := by
  cases op with
  | toParent nd p => exact ⟨rfl, rfl⟩
  | withRoot nd p =>
    simp only [applyOp]
    unfold Network.connect_with_root
    by_cases he : net.nodes.isEmpty = true
    · rw [if_pos he]
      exact ⟨rfl, rfl⟩
    · rw [if_neg he]
      cases p with
      | none => exact ⟨rfl, rfl⟩
      | some q => exact ⟨rfl, rfl⟩
  | withAddress nd a p => simp [isAllocOp] at h

theorem runAddrsFrom_alloc_closed {N : Type} (ops : List (Op N)) :
    ∀ net : Network N, ops.all isAllocOp = true →
      runAddrsFrom net ops =
        (List.range ops.length).map (fun k => (net.counter + 1 + k) % 65536) := by
  induction ops with
  | nil => intro net _; rfl
  | cons op ops ih =>
    intro net h
    rw [List.all_cons, Bool.and_eq_true] at h
    obtain ⟨ha, hc⟩ := alloc_addr_counter net op h.1
    rw [runAddrsFrom, ha, ih _ h.2, hc]
    rw [List.length_cons, List.range_succ_eq_map, List.map_cons, List.map_map]
    congr 1
    apply List.map_congr_left
    intro k hk
    simp only [Function.comp_apply, counterNext]
    omega

/-! ## Device path termination machinery -/

/-- Every stored device's own address field equals its arena key. The
parent-chain walk in `device_path` queries the stored device's own address
field, so this consistency condition ties the walk to the arena's keys.
It holds for explicit-address insertions made like `System::new`'s, but no
insertion operation enforces it. -/
def selfAddrB (net : Network Device) : Bool :=
  net.nodes.all (fun e => e.2.address == e.1)

theorem selfAddr_lookup {net : Network Device} (h : selfAddrB net = true)
    {k : Nat} {d : Device} (hk : mlookup net.nodes k = some d) : d.address = k := by
  have hmem := mlookup_mem hk
  have h2 := List.all_eq_true.mp h _ hmem
  simpa using h2

theorem devicePathAux_total (net : Network Device) (hsa : selfAddrB net = true) :
    ∀ (n : Nat) (d : Device) (path : List String),
      pcIterF (fun y => mlookup net.parent_connection y) n d.address = none →
      (devicePathAux net d path n).isSome = true := by
  intro n
  induction n with
  | zero =>
    intro d path hchain
    exact absurd hchain (by simp [pcIterF])
  | succ n ih =>
    intro d path hchain
    cases hp : mlookup net.parent_connection d.address with
    | none => simp [devicePathAux, Network.get_parent, hp]
    | some p =>
      simp only [pcIterF, hp] at hchain
      simp only [devicePathAux, Network.get_parent, hp]
      cases hd : net.get_node p with
      | none => simp
      | some d2 =>
        simp only []
        have haddr : d2.address = p := selfAddr_lookup hsa hd
        rw [← haddr] at hchain
        exact ih d2 (path ++ [d.deviceId]) hchain

/-! ## Claim theorems, part 1 -/

/-- C1: computing the device path of a node `C` stored at address 3 whose
parent is a relay `R` at address 2, itself a child of the root `A` at
address 1, yields `["R", "C", "C"]` — the node's own identifier is pushed
again on every loop iteration and the root's identifier is never pushed —
and not `["A", "R", "C"]` as the specification's algorithm and scenario
require. -/
theorem C1_device_path_depth_two_is_wrong :
    devicePath
      (run [Op.withAddress (Device.mainframe "A" 1) 1 none,
        Op.withAddress (Device.networkNode "R" 2) 2 (some 1),
        Op.withAddress (Device.terminal "C" 3) 3 (some 2)])
      (Device.terminal "C" 3) 10 = some ⟨["R", "C", "C"]⟩ ∧
    devicePath
      (run [Op.withAddress (Device.mainframe "A" 1) 1 none,
        Op.withAddress (Device.networkNode "R" 2) 2 (some 1),
        Op.withAddress (Device.terminal "C" 3) 3 (some 2)])
      (Device.terminal "C" 3) 10 ≠ some ⟨["A", "R", "C"]⟩ := by
  decide

/-- C4: for every nonempty sequence of insertions, the network's root is
the address returned by the first insertion, whatever the later insertions
are. -/
theorem C4_root_stable {N : Type} (op : Op N) (ops : List (Op N)) :
    (run (op :: ops)).root = some (applyOp Network.new op).2 := by
  show (runFrom (applyOp Network.new op).1 ops).root = some (applyOp Network.new op).2
  exact root_after_runFrom ops _ _ (first_insert_sets_root op)

/-- C7: with line width 5, pushing `h,e,l,l,o,w,o,r,l,d` yields previous
lines `["hello"]` but current line `"orld"`, not `"world"`: the character
that triggers the wrap (`w`) is discarded by `Console::receive`. -/
theorem C7_wrap_drops_character :
    (Console.receiveChars (Console.new 5) "helloworld".toList).previous_lines = ["hello"] ∧
    (Console.receiveChars (Console.new 5) "helloworld".toList).current_line = "orld" ∧
    (Console.receiveChars (Console.new 5) "helloworld".toList).current_line ≠ "world" := by
  decide

/-- C8: for the console state with completed lines `["a", "b", "c"]` and
current line `"d"` (reached by pushing `a,\n,b,\n,c,\n,d`), `view 2` yields
`"\nb\na\nd"` — the first two completed lines, newest of that window
first — and not the last two completed lines oldest-first followed by the
current line (`"\nb\nc\nd"`). -/
theorem C8_view_shows_oldest_window_reversed :
    (Console.receiveChars (Console.new 5) "a\nb\nc\nd".toList).previous_lines = ["a", "b", "c"] ∧
    (Console.receiveChars (Console.new 5) "a\nb\nc\nd".toList).current_line = "d" ∧
    (Console.receiveChars (Console.new 5) "a\nb\nc\nd".toList).view 2 = "\nb\na\nd" ∧
    (Console.receiveChars (Console.new 5) "a\nb\nc\nd".toList).view 2 ≠ "\nb\nc\nd" := by
  decide

/-- C9: parsing `"a/b/c"` then formatting yields `"a/b/c"`, and parsing
`"/a//b/"` then formatting yields `"a/b"`: empty segments are discarded and
formatting joins with `/` without a leading slash. -/
theorem C9_path_round_trip :
    (DevicePath.fromStr "a/b/c").toStr = "a/b/c" ∧
    (DevicePath.fromStr "/a//b/").toStr = "a/b" := by
  decide

/-- C10: every insertion ends by unconditionally resetting the child list
of the address it stored the node at, so immediately afterwards
`get_children` of that address is `some []`, whatever was recorded there
before. -/
theorem C10_insert_resets_children {N : Type} (net : Network N) (op : Op N) :
    (applyOp net op).1.get_children (applyOp net op).2 = some [] := by
  cases op with
  | toParent n p => exact children_after_ctp net n p
  | withAddress n a p => exact children_after_cwa net n a p
  | withRoot n p =>
    unfold applyOp Network.connect_with_root
    by_cases he : net.nodes.isEmpty
    · simp only [he, if_true]
      exact children_after_ctp net n none
    · simp only [he, Bool.false_eq_true, if_false]
      cases p with
      | none => exact children_after_ctp net n net.root
      | some q => exact children_after_ctp net n (some q)

/-- C2, counterexample: after inserting node `a` at address 1, node `b` at
address 2 as a child of 1, and then a third node again at address 1, the
parent map still records `parent[2] = 1` but the child list of 1 has been
reset to empty, so 2 does not appear in `children[1]` — the mutual-inverse
invariant fails for unrestricted insertion sequences. -/
theorem C2_mutual_inverse_cex :
    (run [Op.withAddress "a" 1 none, Op.withAddress "b" 2 (some 1),
      Op.withAddress "c" 1 none]).get_parent 2 = some 1 ∧
    (run [Op.withAddress "a" 1 none, Op.withAddress "b" 2 (some 1),
      Op.withAddress "c" 1 none]).get_children 1 = some [] := by
  decide

/-- C5, counterexample: two explicit-address insertions naming the same
address return the same address twice, so the returned addresses of a
sequence of insertions are not pairwise distinct in general. -/
theorem C5_addresses_cex :
    runAddrs [Op.withAddress "x" 7 none, Op.withAddress "y" 7 none] = [7, 7] ∧
    ¬ (runAddrs [Op.withAddress "x" 7 none, Op.withAddress "y" 7 none]).Nodup := by
  decide

/-- C6, counterexample: a first insertion that supplies a (nonexistent)
parent address makes the new node the root while also recording a parent
for it, so `get_parent` of the root is not `none`. -/
theorem C6_root_parent_cex :
    (run [Op.toParent "a" (some 5)]).root = some 1001 ∧
    (run [Op.toParent "a" (some 5)]).get_parent 1001 = some 5 := by
  decide

/-- C2 (amended): under the specification's caller contract — every
insertion stores at an address not already in use and every supplied parent
address names a node already stored — the parent and child maps are mutual
inverses: every node with recorded parent `p` appears exactly once in `p`'s
child list, and every child recorded under `p` has recorded parent `p`. -/
theorem C2_mutual_inverse_under_contract {N : Type} (ops : List (Op N))
    (h : validB Network.new ops = true) :
    (∀ x p, (run ops).get_parent x = some p →
      ∃ l, (run ops).get_children p = some l ∧ l.count x = 1) ∧
    (∀ p l, (run ops).get_children p = some l →
      ∀ c ∈ l, (run ops).get_parent c = some p) := by
  have inv := inv_run ops h
  exact ⟨inv.childOnce, inv.childParent⟩

/-- C2 witness: a concrete contract-respecting three-insertion run. -/
theorem C2_mutual_inverse_under_contract_witness :
    validB Network.new [Op.toParent "a" none, Op.toParent "b" (some 1001),
      Op.withAddress "c" 5 (some 1002)] = true ∧
    ((∀ x p, (run [Op.toParent "a" none, Op.toParent "b" (some 1001),
        Op.withAddress "c" 5 (some 1002)]).get_parent x = some p →
      ∃ l, (run [Op.toParent "a" none, Op.toParent "b" (some 1001),
        Op.withAddress "c" 5 (some 1002)]).get_children p = some l ∧ l.count x = 1) ∧
     (∀ p l, (run [Op.toParent "a" none, Op.toParent "b" (some 1001),
        Op.withAddress "c" 5 (some 1002)]).get_children p = some l →
      ∀ c ∈ l, (run [Op.toParent "a" none, Op.toParent "b" (some 1001),
        Op.withAddress "c" 5 (some 1002)]).get_parent c = some p)) :=
  ⟨by decide, C2_mutual_inverse_under_contract _ (by decide)⟩

/-- C5 (amended): for a sequence of at most `2 ^ 16` insertions that all
use allocator-assigned addresses (`connect_to_parent` or
`connect_with_root`), the returned addresses are pairwise distinct. (The
`u16` counter wraps, so the bound is necessary, and explicit-address
insertions can repeat addresses at will.) -/
theorem C5_alloc_addresses_distinct {N : Type} (ops : List (Op N))
    (hlen : ops.length ≤ 65536) (halloc : ops.all isAllocOp = true) :
    (runAddrs ops).Nodup := by
  rw [runAddrs, runAddrsFrom_alloc_closed ops Network.new halloc]
  refine List.Nodup.map_on ?_ (List.nodup_range _)
  intro x hx y hy hxy
  rw [List.mem_range] at hx hy
  have hx' : x < 65536 := lt_of_lt_of_le hx hlen
  have hy' : y < 65536 := lt_of_lt_of_le hy hlen
  have hcount : (@Network.new N).counter = 1000 := rfl
  rw [hcount] at hxy
  omega

/-- C5 witness: two allocator-assigned insertions return distinct
addresses. -/
theorem C5_alloc_addresses_distinct_witness :
    ([Op.toParent "a" none, Op.toParent "b" none] : List (Op String)).length ≤ 65536 ∧
    ([Op.toParent "a" none, Op.toParent "b" none] : List (Op String)).all isAllocOp = true ∧
    (runAddrs [Op.toParent "a" none, Op.toParent "b" none]).Nodup :=
  ⟨by decide, by decide, C5_alloc_addresses_distinct _ (by decide) (by decide)⟩

/-- C6 (amended): under the caller contract, `get_parent` of the root
address returns `none` in every reachable state. (The contract forces the
first insertion to carry no parent argument, since a supplied parent would
have to be stored in the still-empty arena.) -/
theorem C6_root_unparented_under_contract {N : Type} (ops : List (Op N))
    (h : validB Network.new ops = true) (r : Nat) (hr : (run ops).root = some r) :
    (run ops).get_parent r = none :=
  (inv_run ops h).rootNoParent r hr

/-- C6 witness: a concrete contract-respecting run whose root 1001 has no
recorded parent. -/
theorem C6_root_unparented_under_contract_witness :
    validB Network.new [Op.toParent "a" none, Op.toParent "b" (some 1001)] = true ∧
    (run [Op.toParent "a" none, Op.toParent "b" (some 1001)]).root = some 1001 ∧
    (run [Op.toParent "a" none, Op.toParent "b" (some 1001)]).get_parent 1001 = none :=
  ⟨by decide, by decide,
    C6_root_unparented_under_contract _ (by decide) 1001 (by decide)⟩

/-- C3 (amended): for every network built by contract-respecting
insertions in which each stored device's own address field equals its
arena key, `device_path` terminates on every device: some finite fuel
makes the embedded loop return. -/
theorem C3_device_path_terminates (ops : List (Op Device))
    (h : validB Network.new ops = true) (hsa : selfAddrB (run ops) = true)
    (d : Device) :
    ∃ fuel, (devicePath (run ops) d fuel).isSome = true := by
  obtain ⟨n, hn⟩ := (inv_run ops h).chainEnds d.address
  refine ⟨n, ?_⟩
  have haux := devicePathAux_total (run ops) hsa n d [d.deviceId] hn
  rw [devicePath]
  cases hres : devicePathAux (run ops) d [d.deviceId] n with
  | none => rw [hres] at haux; simp at haux
  | some pth => simp

/-- C3 witness: a concrete two-device contract-respecting network with
consistent address fields, on which the path walk of the child device
terminates. -/
theorem C3_device_path_terminates_witness :
    validB Network.new [Op.withAddress (Device.mainframe "A" 1) 1 none,
      Op.withAddress (Device.terminal "B" 2) 2 (some 1)] = true ∧
    selfAddrB (run [Op.withAddress (Device.mainframe "A" 1) 1 none,
      Op.withAddress (Device.terminal "B" 2) 2 (some 1)]) = true ∧
    ∃ fuel, (devicePath (run [Op.withAddress (Device.mainframe "A" 1) 1 none,
      Op.withAddress (Device.terminal "B" 2) 2 (some 1)])
      (Device.terminal "B" 2) fuel).isSome = true :=
  ⟨by decide, by decide,
    C3_device_path_terminates _ (by decide) (by decide) (Device.terminal "B" 2)⟩

/-- The reachable network used in C3's counterexample: re-inserting a node
at address 1 with parent 2 rewrites the recorded parent of 1 and creates a
parent cycle between addresses 1 and 2. -/
def cycNet : Network Device :=
  run [Op.withAddress (Device.mainframe "A" 1) 1 none,
    Op.withAddress (Device.terminal "B" 2) 2 (some 1),
    Op.withAddress (Device.mainframe "A" 1) 1 (some 2)]

theorem cyc_loops : ∀ (n : Nat) (path : List String),
    devicePathAux cycNet (Device.mainframe "A" 1) path n = none ∧
    devicePathAux cycNet (Device.terminal "B" 2) path n = none := by
  intro n
  induction n with
  | zero => intro path; exact ⟨rfl, rfl⟩
  | succ n ih =>
    intro path
    have h1 : cycNet.get_parent (Device.mainframe "A" 1).address = some 2 := by decide
    have h2 : cycNet.get_node 2 = some (Device.terminal "B" 2) := by decide
    have h3 : cycNet.get_parent (Device.terminal "B" 2).address = some 1 := by decide
    have h4 : cycNet.get_node 1 = some (Device.mainframe "A" 1) := by decide
    constructor
    · simp only [devicePathAux, h1, h2]
      exact (ih _).2
    · simp only [devicePathAux, h3, h4]
      exact (ih _).1

/-- C3, counterexample: a state reachable by three public insertions in
which address 1 is its own ancestor (the parent of 1 is 2 and the parent
of 2 is 1), and on which `device_path` of the node stored at address 1
never returns, whatever fuel is supplied to the embedded loop. -/
theorem C3_termination_cex :
    cycNet.get_parent 1 = some 2 ∧ cycNet.get_parent 2 = some 1 ∧
    ¬ ∃ fuel, (devicePath cycNet (Device.mainframe "A" 1) fuel).isSome = true := by
  refine ⟨by decide, by decide, ?_⟩
  rintro ⟨fuel, hf⟩
  rw [devicePath, (cyc_loops fuel _).1] at hf
  simp at hf

end Queus
